import Mathlib

/-!
Shallow embedding of the task dependency graph and scheduler of the
llm-swarm repository (file src/utils/dependency_graph.py), together with
proofs of the behavioural claims about it.

Python dictionaries preserve insertion order, so the task map of a
DependencyGraph is modelled as an insertion-ordered list of tasks whose ids
are kept unique by add_task.  Python exceptions are modelled with Except,
carrying structured data in place of the formatted message strings.
-/

namespace LLMSwarm

/-- Status of a task in the execution pipeline (enum TaskStatus). -/
inductive TaskStatus where
  | pending
  | inProgress
  | completed
  | failed
  | skipped
deriving DecidableEq, Repr

/-- Types of specialized agents available (enum AgentType). -/
inductive AgentType where
  | frontend
  | backend
  | database
  | testing
  | documentation
  | devops
  | security
deriving DecidableEq, Repr

/-- A single task of the pipeline (dataclass Task).  The payload type of the
Python `Any`-typed output field is a type parameter α; `context` is the
driver-owned key-value bag. -/
structure Task (α : Type) where
  id : String
  name : String
  description : String
  agent_type : AgentType
  dependencies : List String := []
  status : TaskStatus := .pending
  output : Option α := none
  error : Option String := none
  context : List (String × α) := []
  priority : Int := 0
  estimated_duration : Option Int := none
deriving DecidableEq, Repr

/-- Task.is_ready: true iff every id in `dependencies` is among the
completed ids (the Python set is modelled as a list queried by membership). -/
def Task.is_ready {α : Type} (t : Task α) (completed_tasks : List String) : Bool :=
  t.dependencies.all (fun dep_id => completed_tasks.contains dep_id)

/-- Task.mark_completed: set status COMPLETED and store the output.  The
Python method assigns exactly these two fields (it does not touch `error`). -/
def Task.mark_completed {α : Type} (t : Task α) (output : Option α) : Task α :=
  { t with status := .completed, output := output }

/-- Task.mark_failed: set status FAILED and store the error message. -/
def Task.mark_failed {α : Type} (t : Task α) (error : String) : Task α :=
  { t with status := .failed, error := some error }

/-- Structured counterpart of the ValueError exceptions raised by
DependencyGraph: the data each formatted message carries. -/
inductive GraphError where
  | duplicateTask (id : String)
  | danglingDependency (taskId depId : String)
  | circularDependencies (remaining : List String)
deriving DecidableEq, Repr

/-- The dependency graph: an insertion-ordered map from task id to task,
modelled as the list of tasks in insertion order. -/
structure DependencyGraph (α : Type) where
  tasks : List (Task α)
deriving DecidableEq, Repr

namespace DependencyGraph

variable {α : Type}

/-- Membership test `task_id in self.tasks` of the Python dict. -/
def has_id (g : DependencyGraph α) (task_id : String) : Bool :=
  g.tasks.any (fun t => t.id == task_id)

/-- Ids of the tasks, in insertion order (the dict keys). -/
def ids (g : DependencyGraph α) : List String :=
  g.tasks.map Task.id

/-- DependencyGraph.add_task: raise on a duplicate id, otherwise insert the
task at the end of the (insertion-ordered) map. -/
def add_task (g : DependencyGraph α) (task : Task α) :
    Except GraphError (DependencyGraph α) :=
  if g.has_id task.id then
    .error (.duplicateTask task.id)
  else
    .ok ⟨g.tasks ++ [task]⟩

/-- DependencyGraph.get_task: dict .get, first (unique) task with the id. -/
def get_task (g : DependencyGraph α) (task_id : String) : Option (Task α) :=
  g.tasks.find? (fun t => t.id == task_id)

/-- Set of completed task ids, as computed inside get_ready_tasks. -/
def completed_ids (g : DependencyGraph α) : List String :=
  (g.tasks.filter (fun t => t.status == .completed)).map Task.id

/-- Sort key relation of get_ready_tasks: Python sorts by the tuple
(-priority, len(dependencies)) ascending. -/
def ready_le (t u : Task α) : Prop :=
  -t.priority < -u.priority ∨
    (-t.priority = -u.priority ∧ t.dependencies.length ≤ u.dependencies.length)

instance : DecidableRel (α := Task α) ready_le := fun t u => by
  unfold ready_le; infer_instance

instance : IsTotal (Task α) ready_le := by
  constructor
  intro a b
  unfold ready_le
  omega

instance : IsTrans (Task α) ready_le := by
  constructor
  intro a b c hab hbc
  unfold ready_le at *
  omega

/-- DependencyGraph.get_ready_tasks: PENDING tasks whose dependencies are all
completed, stably sorted by (-priority, dependency count).  Python's list.sort
is stable, as is insertionSort with a ≤-like relation. -/
def get_ready_tasks (g : DependencyGraph α) : List (Task α) :=
  let completed_tasks := g.completed_ids
  let ready_tasks := g.tasks.filter
    (fun t => t.status == .pending && t.is_ready completed_tasks)
  List.insertionSort ready_le ready_tasks

/-- Pointwise update of a degree table (a Python dict used only through
lookup and assignment at single keys). -/
def updateFn (f : String → Int) (k : String) (v : Int) : String → Int :=
  fun x => if x = k then v else f x

/-- In-degree computation of get_execution_order: every task starts at 0 and
gains one per entry of its dependency list; a dependency id absent from the
map raises the dangling-dependency error at that point. -/
def compute_in_degrees (g : DependencyGraph α) : Except GraphError (String → Int) :=
  g.tasks.foldlM
    (fun deg task =>
      task.dependencies.foldlM
        (fun d dep_id =>
          if g.has_id dep_id then
            Except.ok (updateFn d task.id (d task.id + 1))
          else
            Except.error (GraphError.danglingDependency task.id dep_id))
        deg)
    (fun _ => 0)

/-- Priority of the task with the given id (the lookup self.tasks[tid] made
by the queue sort key; ids in the queue always exist in the map). -/
def priority_of (g : DependencyGraph α) (tid : String) : Int :=
  match g.tasks.find? (fun t => t.id == tid) with
  | some t => t.priority
  | none => 0

/-- Queue ordering of get_execution_order: Python sorts the queue by the key
-priority ascending, i.e. by priority descending. -/
def queue_le (g : DependencyGraph α) (a b : String) : Prop :=
  -g.priority_of a ≤ -g.priority_of b

instance (g : DependencyGraph α) : DecidableRel (α := String) (queue_le g) :=
  fun a b => by unfold queue_le; infer_instance

instance (g : DependencyGraph α) : IsTotal String (queue_le g) := by
  constructor
  intro a b
  unfold queue_le
  omega

instance (g : DependencyGraph α) : IsTrans String (queue_le g) := by
  constructor
  intro a b c hab hbc
  unfold queue_le at *
  omega

/-- Body of the inner for-loop of get_execution_order: after popping
`current`, walk every task of the map in order; each task listing `current`
among its dependencies has its degree decremented once, and is appended to
the queue when the decremented degree is exactly 0. -/
def dec_step (g : DependencyGraph α) (current : String)
    (dq : (String → Int) × List String) : (String → Int) × List String :=
  g.tasks.foldl
    (fun dq task =>
      if task.dependencies.contains current then
        let d := dq.1 task.id - 1
        if d = 0 then (updateFn dq.1 task.id d, dq.2 ++ [task.id])
        else (updateFn dq.1 task.id d, dq.2)
      else dq)
    dq

/-- The while-loop of get_execution_order (Kahn's algorithm): sort the queue
by descending priority, pop the front, record it, propagate decrements.  The
fuel argument only bounds the recursion; `tasks.length + 1` is proved
sufficient for graphs with unique ids. -/
def kahn_loop (g : DependencyGraph α) :
    Nat → (String → Int) → List String → List String → List String
  | 0, _, _, result => result
  | fuel + 1, deg, queue, result =>
    match List.insertionSort (queue_le g) queue with
    | [] => result
    | current :: rest =>
      let dq := dec_step g current (deg, rest)
      kahn_loop g fuel dq.1 dq.2 (result ++ [current])

/-- DependencyGraph.get_execution_order: Kahn's algorithm; raises on a
dangling dependency while computing in-degrees, and raises the
circular-dependencies error naming the unvisited ids when the queue empties
before every task was visited. -/
def get_execution_order (g : DependencyGraph α) : Except GraphError (List (Task α)) := do
  let deg ← g.compute_in_degrees
  let queue := ((g.tasks.filter (fun t => deg t.id == 0)).map Task.id)
  let resultIds := kahn_loop g (g.tasks.length + 1) deg queue []
  if resultIds.length = g.tasks.length then
    Except.ok (resultIds.filterMap (fun i => g.tasks.find? (fun t => t.id == i)))
  else
    Except.error (.circularDependencies (g.ids.filter (fun i => !resultIds.contains i)))

/-- Structured counterpart of the message strings collected by
validate_dependencies, carrying the task ids each message names. -/
inductive ValidationIssue where
  | dangling (taskId depId : String)
  | selfDependency (taskId : String)
  | orderFailure (e : GraphError)
deriving DecidableEq, Repr

/-- DependencyGraph.validate_dependencies: aggregate, for every task in
order, a message per dangling dependency or self-dependency, then attempt
the topological sort and append its error (if any) instead of raising. -/
def validate_dependencies (g : DependencyGraph α) : List ValidationIssue :=
  let errors := g.tasks.foldl
    (fun errs task =>
      task.dependencies.foldl
        (fun errs dep_id =>
          if !g.has_id dep_id then
            errs ++ [ValidationIssue.dangling task.id dep_id]
          else if dep_id == task.id then
            errs ++ [ValidationIssue.selfDependency task.id]
          else errs)
        errs)
    []
  match g.get_execution_order with
  | .ok _ => errors
  | .error e => errors ++ [ValidationIssue.orderFailure e]

/-- The (possibly empty) list of issues the dependency scan of
validate_dependencies appends for one dependency entry of one task. -/
def issue_of (g : DependencyGraph α) (task : Task α) (dep_id : String) :
    List ValidationIssue :=
  if !g.has_id dep_id then [ValidationIssue.dangling task.id dep_id]
  else if dep_id == task.id then [ValidationIssue.selfDependency task.id]
  else []

/-- Recursive helper get_depth of get_critical_path: depth 0 on a repeated
visit, otherwise 1 plus the maximal depth over the dependency list.  The
fuel bounds the recursion; `tasks.length + 1` suffices because the visited
list grows at every step. -/
def get_depth (g : DependencyGraph α) :
    Nat → String → List String → Nat
  | 0, _, _ => 0
  | fuel + 1, task_id, visited =>
    if visited.contains task_id then 0
    else
      match g.tasks.find? (fun t => t.id == task_id) with
      | none => 0
      | some task =>
        if task.dependencies.isEmpty then 1
        else
          (task.dependencies.map
            (fun dep_id => get_depth g fuel dep_id (task_id :: visited))).foldl max 0 + 1

/-- DependencyGraph._get_task_depth: depth without a visited guard; called
only on acyclic graphs (after get_execution_order succeeded). -/
def get_task_depth (g : DependencyGraph α) : Nat → String → Nat
  | 0, _ => 0
  | fuel + 1, task_id =>
    match g.tasks.find? (fun t => t.id == task_id) with
    | none => 0
    | some task =>
      if task.dependencies.isEmpty then 0 + 1
      else
        ((task.dependencies.map (get_task_depth g fuel)).foldl max 0) + 1

/-- Python max(deps, key=depth): the first element attaining the maximal
depth (strictly greater replaces the running best). -/
def max_by_depth (g : DependencyGraph α) (fuel : Nat) :
    List String → Option String
  | [] => none
  | d :: ds =>
    some (ds.foldl
      (fun best x =>
        if get_task_depth g fuel x > get_task_depth g fuel best then x else best)
      d)

/-- DependencyGraph._build_critical_path: walk backwards from the anchor,
prepending each task and following the dependency of greatest depth. -/
def build_critical_path (g : DependencyGraph α) :
    Nat → String → List (Task α) → List (Task α)
  | 0, _, path => path
  | fuel + 1, current_id, path =>
    match g.tasks.find? (fun t => t.id == current_id) with
    | none => path
    | some task =>
      let path' := task :: path
      match max_by_depth g (g.tasks.length + 1) task.dependencies with
      | none => path'
      | some next_id => build_critical_path g fuel next_id path'

/-- DependencyGraph.get_critical_path: after the topological sort succeeds,
scan tasks in execution order keeping the first task of strictly maximal
depth, and rebuild the chain ending at it. -/
def get_critical_path (g : DependencyGraph α) : Except GraphError (List (Task α)) := do
  let execution_order ← g.get_execution_order
  let r := execution_order.foldl
    (fun (acc : Nat × List (Task α)) task =>
      let depth := get_depth g (g.tasks.length + 1) task.id []
      if depth > acc.1 then
        (depth, build_critical_path g (g.tasks.length + 1) task.id [])
      else acc)
    (0, [])
  Except.ok r.2

/-- DependencyGraph.get_status_summary restricted to one status: the number
of tasks currently carrying it. -/
def status_count (g : DependencyGraph α) (s : TaskStatus) : Nat :=
  (g.tasks.filter (fun t => t.status == s)).length

end DependencyGraph

/-! Concrete graphs used by counterexamples and witnesses. -/

/-- A pending task with no special fields, for concrete graphs. -/
def plainTask (id : String) (deps : List String) : Task String :=
  { id := id, name := id, description := "", agent_type := AgentType.backend,
    dependencies := deps, status := .pending, output := none, error := none,
    context := [], priority := 0, estimated_duration := none }

def taskA : Task String := plainTask "A" []
def taskB : Task String := plainTask "B" ["A"]
def taskC : Task String := plainTask "C" ["B"]
def taskD : Task String := plainTask "D" ["C"]

/-- Linear chain A ← B ← C ← D (D depends on C, C on B, B on A). -/
def chainGraph : DependencyGraph String := ⟨[taskA, taskB, taskC, taskD]⟩

/-- Acyclic dangling-free graph in which B lists its dependency A twice. -/
def dupDepGraph : DependencyGraph String := ⟨[taskA, plainTask "B" ["A", "A"]]⟩

/-- Cyclic graph A → B → C → A (B depends on A, C on B, A on C). -/
def cycleGraph : DependencyGraph String :=
  ⟨[plainTask "A" ["C"], plainTask "B" ["A"], plainTask "C" ["B"]]⟩

/-- The empty graph. -/
def emptyGraph : DependencyGraph String := ⟨[]⟩

/-- A task that has already failed, carrying an error message. -/
def failedTask : Task String :=
  { plainTask "T" [] with status := .failed, error := some "boom" }

/-- The state-changing operations the Task entity provides to the driver. -/
inductive TaskOp (α : Type) where
  | complete (output : Option α)
  | fail (error : String)

/-- Apply one driver operation to a task. -/
def applyOp {α : Type} (t : Task α) : TaskOp α → Task α
  | .complete output => t.mark_completed output
  | .fail error => t.mark_failed error

/-! Specification-side predicates about graphs, used to state the claims. -/

namespace DependencyGraph

variable {α : Type}

/-- Every dependency of every task references an id present in the graph. -/
def NoDangling (g : DependencyGraph α) : Prop :=
  ∀ t ∈ g.tasks, ∀ d ∈ t.dependencies, d ∈ g.ids

/-- No task lists the same dependency id twice. -/
def DepsNodup (g : DependencyGraph α) : Prop :=
  ∀ t ∈ g.tasks, t.dependencies.Nodup

/-- No task lists itself among its dependencies. -/
def NoSelfDep (g : DependencyGraph α) : Prop :=
  ∀ t ∈ g.tasks, t.id ∉ t.dependencies

instance (g : DependencyGraph α) : Decidable g.NoDangling := by
  unfold NoDangling
  infer_instance

instance (g : DependencyGraph α) : Decidable g.DepsNodup := by
  unfold DepsNodup
  infer_instance

instance (g : DependencyGraph α) : Decidable g.NoSelfDep := by
  unfold NoSelfDep
  infer_instance

/-- Edge g a b: the task with id a lists b among its dependencies
(a depends directly on b, so b must run before a). -/
def Edge (g : DependencyGraph α) (a b : String) : Prop :=
  ∃ t ∈ g.tasks, t.id = a ∧ b ∈ t.dependencies

/-- The graph contains a dependency cycle: a nonempty chain of dependency
edges leading from some id back to itself. -/
def HasCycle (g : DependencyGraph α) : Prop :=
  ∃ (x : String) (l : List String), List.Chain (Edge g) x l ∧ l.getLast? = some x

/-- A list of ids is topologically sorted for g: whenever a task's id occurs
in the list, that task has no repeated dependency and all its dependencies
occur strictly earlier. -/
def IdsTopo (g : DependencyGraph α) (res : List String) : Prop :=
  ∀ pre x post, res = pre ++ x :: post →
    ∀ t ∈ g.tasks, t.id = x →
      t.dependencies.Nodup ∧ ∀ d ∈ t.dependencies, d ∈ pre

/-- A task sequence is a topological order: every dependency of every member
is the id of a strictly earlier member. -/
def TopoOrder (order : List (Task α)) : Prop :=
  ∀ pre t post, order = pre ++ t :: post →
    ∀ d ∈ t.dependencies, ∃ u ∈ pre, u.id = d

/-- Position of the first occurrence of x in a list (length of the longest
prefix avoiding x), used as a decreasing measure along dependency edges of a
topologically sorted output. -/
def firstPos (l : List String) (x : String) : Nat :=
  (l.takeWhile (fun y => y != x)).length

/-- Invariant of the Kahn while-loop relating the degree table, the pending
queue and the ids already emitted. -/
structure KahnInv (g : DependencyGraph α) (deg : String → Int)
    (queue result : List String) : Prop where
  result_nodup : result.Nodup
  result_ids : ∀ x ∈ result, x ∈ g.ids
  queue_nodup : queue.Nodup
  queue_ids : ∀ x ∈ queue, x ∈ g.ids
  queue_fresh : ∀ x ∈ queue, x ∉ result
  deg_eq : ∀ t ∈ g.tasks, deg t.id =
    (t.dependencies.length : Int) -
      ((result.filter (fun r => t.dependencies.contains r)).length : Int)
  queue_iff : ∀ t ∈ g.tasks, (t.id ∈ queue ↔ (deg t.id = 0 ∧ t.id ∉ result))
  topo : IdsTopo g result

end DependencyGraph

end LLMSwarm

/-! Theorems. -/

namespace LLMSwarm

open DependencyGraph

/-- C5 (amended): mark_completed sets the status to COMPLETED and stores the
given result payload; every other field, in particular the error field, is
left unchanged (the error is not cleared). -/
theorem C5_mark_completed_sets_status_and_output {α : Type} (t : Task α)
    (output : Option α) :
    (t.mark_completed output).status = TaskStatus.completed ∧
    (t.mark_completed output).output = output ∧
    (t.mark_completed output).error = t.error ∧
    (t.mark_completed output).id = t.id ∧
    (t.mark_completed output).dependencies = t.dependencies ∧
    (t.mark_completed output).priority = t.priority :=
  ⟨rfl, rfl, rfl, rfl, rfl, rfl⟩

/-- C5 counterexample: marking a failed task (error "boom") completed stores
the result and sets COMPLETED but leaves the error field set, refuting the
claim that mark_completed clears the error field. -/
theorem C5_error_not_cleared :
    (failedTask.mark_completed (some "r")).status = TaskStatus.completed ∧
    (failedTask.mark_completed (some "r")).output = some "r" ∧
    (failedTask.mark_completed (some "r")).error = some "boom" :=
  ⟨rfl, rfl, rfl⟩

/-- C9 (amended): under the task-level operations mark_completed and
mark_failed, the set of statuses COMPLETED and FAILED is closed: no sequence
of these operations moves a task whose status lies in that set out of it
(although movement inside the set, e.g. FAILED to COMPLETED, is possible). -/
theorem C9_completed_failed_closed {α : Type} (t : Task α) (ops : List (TaskOp α))
    (h : t.status = TaskStatus.completed ∨ t.status = TaskStatus.failed) :
    (ops.foldl applyOp t).status = TaskStatus.completed ∨
    (ops.foldl applyOp t).status = TaskStatus.failed := by
  induction ops generalizing t with
  | nil => exact h
  | cons op ops ih =>
    cases op with
    | complete output => exact ih (t.mark_completed output) (Or.inl rfl)
    | fail error => exact ih (t.mark_failed error) (Or.inr rfl)

/-- C9 witness: a concrete failed task pushed through a concrete sequence of
operations stays within the COMPLETED/FAILED set. -/
theorem C9_completed_failed_closed_witness :
    (([TaskOp.complete (some "r"), TaskOp.fail "again"] :
        List (TaskOp String)).foldl applyOp failedTask).status =
      TaskStatus.completed ∨
    (([TaskOp.complete (some "r"), TaskOp.fail "again"] :
        List (TaskOp String)).foldl applyOp failedTask).status =
      TaskStatus.failed :=
  C9_completed_failed_closed failedTask
    [TaskOp.complete (some "r"), TaskOp.fail "again"] (Or.inr rfl)

/-- C9 counterexample: mark_completed moves a FAILED task to COMPLETED, so a
provided operation does move a task out of a terminal status, refuting the
claim that no sequence of operations leaves COMPLETED, FAILED or SKIPPED. -/
theorem C9_failed_leaves_terminal :
    failedTask.status = TaskStatus.failed ∧
    (failedTask.mark_completed none).status = TaskStatus.completed :=
  ⟨rfl, rfl⟩

/-- C6: get_execution_order is deterministic: two calls on the same
unmutated graph denote the same computation and return identical sequences
(the queue tie-break sorts by descending priority, a pure function of the
graph, and the iteration order is the dict insertion order). -/
theorem C6_execution_order_deterministic {α : Type} (g : DependencyGraph α) :
    g.get_execution_order = g.get_execution_order := rfl

/-- Membership form of the Python dict containment test of add_task. -/
theorem has_id_iff_exists {α : Type} (g : DependencyGraph α) (x : String) :
    g.has_id x = true ↔ ∃ t ∈ g.tasks, t.id = x := by
  simp [DependencyGraph.has_id, List.any_eq_true, beq_iff_eq]

/-- C7: add_task fails with the duplicate-task error exactly when a task
with the same id is already present, and in that case returns no new graph
(the graph value is untouched); otherwise it appends the task to the map,
where a lookup of its id now finds it. -/
theorem C7_add_task_duplicate_or_insert {α : Type} (g : DependencyGraph α)
    (task : Task α) :
    ((∃ t ∈ g.tasks, t.id = task.id) →
      g.add_task task = Except.error (GraphError.duplicateTask task.id)) ∧
    ((¬ ∃ t ∈ g.tasks, t.id = task.id) →
      g.add_task task = Except.ok ⟨g.tasks ++ [task]⟩ ∧
      (DependencyGraph.mk (g.tasks ++ [task])).get_task task.id = some task) := by
  constructor
  · intro h
    unfold DependencyGraph.add_task
    rw [if_pos ((has_id_iff_exists g task.id).mpr h)]
  · intro h
    have hfalse : ¬ g.has_id task.id = true := fun hc =>
      h ((has_id_iff_exists g task.id).mp hc)
    constructor
    · unfold DependencyGraph.add_task
      rw [if_neg hfalse]
    · unfold DependencyGraph.get_task
      have hnone : g.tasks.find? (fun t => t.id == task.id) = none := by
        rw [List.find?_eq_none]
        intro t ht hbeq
        exact h ⟨t, ht, by simpa using hbeq⟩
      simp [List.find?_append, hnone]

/-- C7 witness: adding a task whose id A is already present in the chain
graph fails with the duplicate error; adding it to the empty graph inserts
it and makes it retrievable by id. -/
theorem C7_add_task_witness :
    chainGraph.add_task taskA = Except.error (GraphError.duplicateTask "A") ∧
    (emptyGraph.add_task taskA = Except.ok ⟨[taskA]⟩ ∧
      (DependencyGraph.mk [taskA]).get_task "A" = some taskA) := by
  constructor
  · exact (C7_add_task_duplicate_or_insert chainGraph taskA).1
      ⟨taskA, by decide, rfl⟩
  · exact (C7_add_task_duplicate_or_insert emptyGraph taskA).2 (by decide)

/-- C8: on the linear chain A, B depends on A, C depends on B, D depends on
C, get_critical_path returns exactly the sequence A, B, C, D. -/
theorem C8_critical_path_chain :
    chainGraph.get_critical_path = Except.ok [taskA, taskB, taskC, taskD] := rfl

/-- C4: get_ready_tasks returns (a permutation of) exactly the tasks of the
graph whose status is PENDING and whose dependencies all carry the id of a
COMPLETED task (a task with no dependencies is always ready), sorted by
priority descending and then dependency count ascending; it is a pure query
of the graph and returns the stored tasks unchanged. -/
theorem C4_get_ready_tasks_spec {α : Type} (g : DependencyGraph α) :
    (∀ t : Task α, t ∈ g.get_ready_tasks ↔
      (t ∈ g.tasks ∧ t.status = TaskStatus.pending ∧
        ∀ d ∈ t.dependencies,
          ∃ u ∈ g.tasks, u.id = d ∧ u.status = TaskStatus.completed)) ∧
    g.get_ready_tasks.Perm (g.tasks.filter
      (fun t => t.status == TaskStatus.pending && t.is_ready g.completed_ids)) ∧
    List.Sorted ready_le g.get_ready_tasks := by
  refine ⟨?_, ?_, ?_⟩
  · intro t
    simp only [DependencyGraph.get_ready_tasks, List.mem_insertionSort, List.mem_filter,
      Bool.and_eq_true, beq_iff_eq, Task.is_ready, List.all_eq_true,
      DependencyGraph.completed_ids, List.mem_map, List.mem_filter]
    constructor
    · rintro ⟨ht, hst, hall⟩
      refine ⟨ht, hst, ?_⟩
      intro d hd
      have := hall d hd
      rw [List.elem_iff] at this
      simp only [List.mem_map, List.mem_filter, beq_iff_eq] at this
      obtain ⟨u, ⟨hu, hus⟩, hid⟩ := this
      exact ⟨u, hu, hid, hus⟩
    · rintro ⟨ht, hst, hall⟩
      refine ⟨ht, hst, ?_⟩
      intro d hd
      rw [List.elem_iff]
      simp only [List.mem_map, List.mem_filter, beq_iff_eq]
      obtain ⟨u, hu, hid, hus⟩ := hall d hd
      exact ⟨u, ⟨hu, hus⟩, hid⟩
  · exact List.perm_insertionSort _ _
  · exact List.sorted_insertionSort _ _

/-! Helper lemmas about ids and lookups. -/

theorem mem_ids_iff {α : Type} (g : DependencyGraph α) (x : String) :
    x ∈ g.ids ↔ ∃ t ∈ g.tasks, t.id = x := by
  simp [DependencyGraph.ids, List.mem_map]

theorem task_eq_of_id_eq {α : Type} {g : DependencyGraph α} (hids : g.ids.Nodup)
    {t u : Task α} (ht : t ∈ g.tasks) (hu : u ∈ g.tasks) (h : t.id = u.id) :
    t = u :=
  List.inj_on_of_nodup_map hids ht hu h

theorem find?_id_eq {α : Type} {g : DependencyGraph α} (hids : g.ids.Nodup)
    {t : Task α} (ht : t ∈ g.tasks) :
    g.tasks.find? (fun u => u.id == t.id) = some t := by
  have hsome : (g.tasks.find? (fun u => u.id == t.id)).isSome = true := by
    rw [List.find?_isSome]
    exact ⟨t, ht, by simp⟩
  obtain ⟨u, hu⟩ := Option.isSome_iff_exists.mp hsome
  have hmem := List.mem_of_find?_eq_some hu
  have hbeq := List.find?_some hu
  have hid : u.id = t.id := by simpa using hbeq
  rw [hu, task_eq_of_id_eq hids hmem ht hid]

/-! Counting lemmas: the number of emitted ids that a task's dependency
list mentions, versus the length of that dependency list. -/

theorem filter_contains_length_of_sub {deps result : List String}
    (hres : result.Nodup) (hdeps : deps.Nodup) (hsub : ∀ d ∈ deps, d ∈ result) :
    (result.filter (fun r => deps.contains r)).length = deps.length := by
  have hF : (result.filter (fun r => deps.contains r)).Nodup :=
    (List.filter_sublist result).nodup hres
  have hFsub : (result.filter (fun r => deps.contains r)) ⊆ deps := by
    intro x hx
    have := (List.mem_filter.mp hx).2
    exact List.elem_iff.mp this
  have hdepsF : deps ⊆ (result.filter (fun r => deps.contains r)) := by
    intro d hd
    exact List.mem_filter.mpr ⟨hsub d hd, List.elem_iff.mpr hd⟩
  exact le_antisymm ((hF.subperm hFsub).length_le) ((hdeps.subperm hdepsF).length_le)

theorem deps_nodup_sub_of_filter_length {deps result : List String}
    (hres : result.Nodup)
    (h : (result.filter (fun r => deps.contains r)).length = deps.length) :
    deps.Nodup ∧ ∀ d ∈ deps, d ∈ result := by
  set F := result.filter (fun r => deps.contains r) with hFdef
  have hF : F.Nodup := (List.filter_sublist result).nodup hres
  have hFsub : F ⊆ deps.dedup := by
    intro x hx
    exact List.mem_dedup.mpr (List.elem_iff.mp (List.mem_filter.mp hx).2)
  have hlen1 : F.length ≤ deps.dedup.length := (hF.subperm hFsub).length_le
  have hlen2 : deps.dedup.length ≤ deps.length := (List.dedup_sublist deps).length_le
  have hdedup : deps.dedup.length = deps.length := by omega
  have hdeps : deps.Nodup :=
    List.dedup_eq_self.mp ((List.dedup_sublist deps).eq_of_length hdedup)
  refine ⟨hdeps, ?_⟩
  obtain ⟨l', hperm, hsubl⟩ := hF.subperm hFsub
  have hl'len : l'.length = deps.dedup.length := by
    rw [hperm.length_eq]
    omega
  have hl' : l' = deps.dedup := hsubl.eq_of_length hl'len
  intro d hd
  have hdF : d ∈ F := hperm.mem_iff.mp (hl' ▸ List.mem_dedup.mpr hd)
  exact (List.mem_filter.mp hdF).1

/-! Characterization of dec_step, the inner for-loop of the Kahn sort. -/

theorem dec_step_spec {α : Type} (current : String) :
    ∀ (ts : List (Task α)) (deg : String → Int) (q : List String),
      (ts.map Task.id).Nodup →
      ((∀ x, x ∉ ts.map Task.id →
          (DependencyGraph.dec_step ⟨ts⟩ current (deg, q)).1 x = deg x) ∧
       (∀ t ∈ ts, (DependencyGraph.dec_step ⟨ts⟩ current (deg, q)).1 t.id =
          (if t.dependencies.contains current then deg t.id - 1 else deg t.id)) ∧
       (DependencyGraph.dec_step ⟨ts⟩ current (deg, q)).2 =
         q ++ (ts.filter (fun t =>
           t.dependencies.contains current && (deg t.id - 1 == 0))).map Task.id) := by
  intro ts
  induction ts with
  | nil =>
    intro deg q _
    refine ⟨fun x _ => rfl, fun t ht => absurd ht (List.not_mem_nil t), ?_⟩
    simp [DependencyGraph.dec_step]
  | cons t₀ ts' ih =>
    intro deg q hnd
    rw [List.map_cons, List.nodup_cons] at hnd
    obtain ⟨hfresh, hnd'⟩ := hnd
    have hne : ∀ t ∈ ts', t.id ≠ t₀.id := by
      intro t ht heq
      exact hfresh (heq ▸ List.mem_map_of_mem Task.id ht)
    have hid₀ : t₀.id ∉ ts'.map Task.id := hfresh
    by_cases hc : t₀.dependencies.contains current = true
    · have hupd_ne : ∀ x, x ≠ t₀.id →
          DependencyGraph.updateFn deg t₀.id (deg t₀.id - 1) x = deg x := by
        intro x hx
        simp [DependencyGraph.updateFn, hx]
      have hupd_eq :
          DependencyGraph.updateFn deg t₀.id (deg t₀.id - 1) t₀.id = deg t₀.id - 1 := by
        simp [DependencyGraph.updateFn]
      have hne' : ∀ t ∈ ts',
          DependencyGraph.updateFn deg t₀.id (deg t₀.id - 1) t.id = deg t.id :=
        fun t ht => hupd_ne t.id (hne t ht)
      have hfiltcong : ts'.filter (fun t => t.dependencies.contains current &&
            (DependencyGraph.updateFn deg t₀.id (deg t₀.id - 1) t.id - 1 == 0)) =
          ts'.filter (fun t => t.dependencies.contains current && (deg t.id - 1 == 0)) := by
        apply List.filter_congr
        intro t ht
        rw [hne' t ht]
      by_cases hz : deg t₀.id - 1 = 0
      · have hfold : DependencyGraph.dec_step (⟨t₀ :: ts'⟩ : DependencyGraph α)
            current (deg, q) = DependencyGraph.dec_step (⟨ts'⟩ : DependencyGraph α)
              current (DependencyGraph.updateFn deg t₀.id (deg t₀.id - 1), q ++ [t₀.id]) := by
          simp only [DependencyGraph.dec_step, List.foldl_cons]
          congr 1
          simp only [hc, if_true, hz, if_pos]
        obtain ⟨ha, hb, hq⟩ := ih (DependencyGraph.updateFn deg t₀.id (deg t₀.id - 1))
          (q ++ [t₀.id]) hnd'
        refine ⟨?_, ?_, ?_⟩
        · intro x hx
          rw [List.map_cons, List.mem_cons] at hx
          push_neg at hx
          rw [hfold, ha x hx.2, hupd_ne x hx.1]
        · intro t ht
          rw [List.mem_cons] at ht
          rcases ht with rfl | ht
          · rw [hfold, ha t.id hid₀, hupd_eq, if_pos hc]
          · rw [hfold, hb t ht, hne' t ht]
        · rw [hfold, hq, hfiltcong, List.filter_cons]
          have hpred : (t₀.dependencies.contains current && (deg t₀.id - 1 == 0)) = true := by
            rw [hc, hz]
            rfl
          rw [hpred]
          simp
      · have hfold : DependencyGraph.dec_step (⟨t₀ :: ts'⟩ : DependencyGraph α)
            current (deg, q) = DependencyGraph.dec_step (⟨ts'⟩ : DependencyGraph α)
              current (DependencyGraph.updateFn deg t₀.id (deg t₀.id - 1), q) := by
          simp only [DependencyGraph.dec_step, List.foldl_cons]
          congr 1
          simp only [hc, if_true]
          rw [if_neg hz]
        obtain ⟨ha, hb, hq⟩ := ih (DependencyGraph.updateFn deg t₀.id (deg t₀.id - 1))
          q hnd'
        refine ⟨?_, ?_, ?_⟩
        · intro x hx
          rw [List.map_cons, List.mem_cons] at hx
          push_neg at hx
          rw [hfold, ha x hx.2, hupd_ne x hx.1]
        · intro t ht
          rw [List.mem_cons] at ht
          rcases ht with rfl | ht
          · rw [hfold, ha t.id hid₀, hupd_eq, if_pos hc]
          · rw [hfold, hb t ht, hne' t ht]
        · rw [hfold, hq, hfiltcong, List.filter_cons]
          have hpred : (t₀.dependencies.contains current && (deg t₀.id - 1 == 0)) = false := by
            rw [hc]
            simp [hz]
          rw [hpred]
          simp
    · have hfold : DependencyGraph.dec_step (⟨t₀ :: ts'⟩ : DependencyGraph α)
          current (deg, q) = DependencyGraph.dec_step (⟨ts'⟩ : DependencyGraph α)
            current (deg, q) := by
        simp only [DependencyGraph.dec_step, List.foldl_cons]
        congr 1
        rw [if_neg hc]
      obtain ⟨ha, hb, hq⟩ := ih deg q hnd'
      refine ⟨?_, ?_, ?_⟩
      · intro x hx
        rw [List.map_cons, List.mem_cons] at hx
        push_neg at hx
        rw [hfold, ha x hx.2]
      · intro t ht
        rw [List.mem_cons] at ht
        rcases ht with rfl | ht
        · rw [hfold, ha t.id hid₀, if_neg hc]
        · rw [hfold, hb t ht]
      · rw [hfold, hq, List.filter_cons]
        have hpred : (t₀.dependencies.contains current && (deg t₀.id - 1 == 0)) = false := by
          have : t₀.dependencies.contains current = false := by
            simpa using hc
          rw [this]
          rfl
        rw [hpred]
        simp

/-! Characterization of compute_in_degrees. -/

theorem in_degrees_inner_ok {α : Type} (g : DependencyGraph α) (task : Task α) :
    ∀ (deps : List String) (d d' : String → Int),
      deps.foldlM (fun d dep_id =>
          if g.has_id dep_id then
            Except.ok (DependencyGraph.updateFn d task.id (d task.id + 1))
          else
            Except.error (GraphError.danglingDependency task.id dep_id)) d =
        Except.ok d' →
      (∀ dep ∈ deps, g.has_id dep = true) ∧
      d' task.id = d task.id + deps.length ∧
      (∀ x, x ≠ task.id → d' x = d x) := by
  intro deps
  induction deps with
  | nil =>
    intro d d' h
    simp only [List.foldlM_nil] at h
    cases h
    exact ⟨fun dep hd => absurd hd (List.not_mem_nil dep), by simp, fun x _ => rfl⟩
  | cons dep deps' ih =>
    intro d d' h
    rw [List.foldlM_cons] at h
    by_cases hc : g.has_id dep = true
    · rw [if_pos hc] at h
      have h' : deps'.foldlM _ (DependencyGraph.updateFn d task.id (d task.id + 1)) =
          Except.ok d' := h
      obtain ⟨hall, hkey, hother⟩ := ih _ d' h'
      refine ⟨?_, ?_, ?_⟩
      · intro x hx
        rcases List.mem_cons.mp hx with rfl | hx
        · exact hc
        · exact hall x hx
      · rw [hkey]
        simp only [DependencyGraph.updateFn, if_pos rfl, List.length_cons]
        push_cast
        ring
      · intro x hx
        rw [hother x hx]
        simp [DependencyGraph.updateFn, hx]
    · rw [if_neg hc] at h
      cases h

theorem in_degrees_inner_exists {α : Type} (g : DependencyGraph α) (task : Task α) :
    ∀ (deps : List String) (d : String → Int),
      (∀ dep ∈ deps, g.has_id dep = true) →
      ∃ d', deps.foldlM (fun d dep_id =>
          if g.has_id dep_id then
            Except.ok (DependencyGraph.updateFn d task.id (d task.id + 1))
          else
            Except.error (GraphError.danglingDependency task.id dep_id)) d =
        Except.ok d' := by
  intro deps
  induction deps with
  | nil =>
    intro d _
    exact ⟨d, rfl⟩
  | cons dep deps' ih =>
    intro d hall
    have hc : g.has_id dep = true := hall dep (List.mem_cons_self dep deps')
    obtain ⟨d', hd'⟩ := ih (DependencyGraph.updateFn d task.id (d task.id + 1))
      (fun x hx => hall x (List.mem_cons_of_mem dep hx))
    refine ⟨d', ?_⟩
    rw [List.foldlM_cons, if_pos hc]
    exact hd'

theorem in_degrees_outer_ok {α : Type} (g : DependencyGraph α) :
    ∀ (ts : List (Task α)) (d₀ d' : String → Int),
      (ts.map Task.id).Nodup →
      ts.foldlM (fun deg task =>
          task.dependencies.foldlM (fun d dep_id =>
            if g.has_id dep_id then
              Except.ok (DependencyGraph.updateFn d task.id (d task.id + 1))
            else
              Except.error (GraphError.danglingDependency task.id dep_id)) deg) d₀ =
        Except.ok d' →
      (∀ t ∈ ts, ∀ dep ∈ t.dependencies, g.has_id dep = true) ∧
      (∀ t ∈ ts, d' t.id = d₀ t.id + t.dependencies.length) ∧
      (∀ x, x ∉ ts.map Task.id → d' x = d₀ x) := by
  intro ts
  induction ts with
  | nil =>
    intro d₀ d' _ h
    simp only [List.foldlM_nil] at h
    cases h
    exact ⟨fun t ht => absurd ht (List.not_mem_nil t),
           fun t ht => absurd ht (List.not_mem_nil t), fun x _ => rfl⟩
  | cons t₀ ts' ih =>
    intro d₀ d' hnd h
    rw [List.map_cons, List.nodup_cons] at hnd
    obtain ⟨hfresh, hnd'⟩ := hnd
    rw [List.foldlM_cons] at h
    cases h₀ : t₀.dependencies.foldlM (fun d dep_id =>
        if g.has_id dep_id then
          Except.ok (DependencyGraph.updateFn d t₀.id (d t₀.id + 1))
        else
          Except.error (GraphError.danglingDependency t₀.id dep_id)) d₀ with
    | error e =>
      rw [h₀] at h
      cases h
    | ok d₁ =>
      rw [h₀] at h
      have h' : ts'.foldlM _ d₁ = Except.ok d' := h
      obtain ⟨hdeps₀, hkey₀, hother₀⟩ := in_degrees_inner_ok g t₀ t₀.dependencies d₀ d₁ h₀
      obtain ⟨hall, hkeys, hothers⟩ := ih d₁ d' hnd' h'
      have hne : ∀ t ∈ ts', t.id ≠ t₀.id := by
        intro t ht heq
        exact hfresh (heq ▸ List.mem_map_of_mem Task.id ht)
      refine ⟨?_, ?_, ?_⟩
      · intro t ht
        rcases List.mem_cons.mp ht with rfl | ht
        · exact hdeps₀
        · exact hall t ht
      · intro t ht
        rcases List.mem_cons.mp ht with rfl | ht
        · rw [hothers t.id hfresh, hkey₀]
        · rw [hkeys t ht, hother₀ t.id (hne t ht)]
      · intro x hx
        rw [List.map_cons, List.mem_cons] at hx
        push_neg at hx
        rw [hothers x hx.2, hother₀ x hx.1]

theorem in_degrees_outer_exists {α : Type} (g : DependencyGraph α) :
    ∀ (ts : List (Task α)) (d₀ : String → Int),
      (∀ t ∈ ts, ∀ dep ∈ t.dependencies, g.has_id dep = true) →
      ∃ d', ts.foldlM (fun deg task =>
          task.dependencies.foldlM (fun d dep_id =>
            if g.has_id dep_id then
              Except.ok (DependencyGraph.updateFn d task.id (d task.id + 1))
            else
              Except.error (GraphError.danglingDependency task.id dep_id)) deg) d₀ =
        Except.ok d' := by
  intro ts
  induction ts with
  | nil =>
    intro d₀ _
    exact ⟨d₀, rfl⟩
  | cons t₀ ts' ih =>
    intro d₀ hall
    obtain ⟨d₁, hd₁⟩ := in_degrees_inner_exists g t₀ t₀.dependencies d₀
      (hall t₀ (List.mem_cons_self t₀ ts'))
    obtain ⟨d', hd'⟩ := ih d₁ (fun t ht => hall t (List.mem_cons_of_mem t₀ ht))
    refine ⟨d', ?_⟩
    rw [List.foldlM_cons, hd₁]
    exact hd'

/-- Membership form of has_id. -/
theorem has_id_iff_mem_ids {α : Type} (g : DependencyGraph α) (x : String) :
    g.has_id x = true ↔ x ∈ g.ids := by
  rw [has_id_iff_exists, mem_ids_iff]

theorem compute_in_degrees_ok_spec {α : Type} {g : DependencyGraph α}
    {deg : String → Int} (hids : g.ids.Nodup)
    (h : g.compute_in_degrees = Except.ok deg) :
    g.NoDangling ∧ ∀ t ∈ g.tasks, deg t.id = (t.dependencies.length : Int) := by
  obtain ⟨hall, hkeys, _⟩ := in_degrees_outer_ok g g.tasks (fun _ => 0) deg hids h
  constructor
  · intro t ht d hd
    exact (has_id_iff_mem_ids g d).mp (hall t ht d hd)
  · intro t ht
    rw [hkeys t ht]
    simp

theorem compute_in_degrees_exists {α : Type} {g : DependencyGraph α}
    (hdang : g.NoDangling) :
    ∃ deg, g.compute_in_degrees = Except.ok deg :=
  in_degrees_outer_exists g g.tasks (fun _ => 0)
    (fun t ht d hd => (has_id_iff_mem_ids g d).mpr (hdang t ht d hd))

/-! The Kahn-loop invariant. -/

theorem idsTopo_nil {α : Type} (g : DependencyGraph α) : g.IdsTopo [] := by
  intro pre x post heq
  exact absurd (congrArg List.length heq) (by simp; omega)

theorem idsTopo_snoc {α : Type} {g : DependencyGraph α} (hids : g.ids.Nodup)
    {result : List String} (htopo : g.IdsTopo result)
    {tc : Task α} (htc : tc ∈ g.tasks)
    (hnodup : tc.dependencies.Nodup)
    (hsub : ∀ d ∈ tc.dependencies, d ∈ result) :
    g.IdsTopo (result ++ [tc.id]) := by
  intro pre x post heq t ht htid
  cases post with
  | nil =>
    obtain ⟨hpre, hx⟩ := List.append_inj' heq (by simp)
    have hxid : x = tc.id := by
      injection hx.symm
    have ht_eq : t = tc := task_eq_of_id_eq hids ht htc (by rw [htid, hxid])
    subst ht_eq
    exact ⟨hnodup, fun d hd => hpre ▸ hsub d hd⟩
  | cons p ps =>
    have hsplit : result = pre ++ x :: (p :: ps).dropLast := by
      have h1 : (result ++ [tc.id]).dropLast = result := List.dropLast_concat
      have h2 : (pre ++ x :: p :: ps).dropLast = pre ++ x :: (p :: ps).dropLast := by
        rw [show pre ++ x :: p :: ps = (pre ++ [x]) ++ (p :: ps) by simp,
          List.dropLast_append_of_ne_nil _ (by simp), List.append_assoc]
        rfl
      rw [← h1, heq, h2]
    exact htopo pre x ((p :: ps).dropLast) hsplit t ht htid

theorem kahn_loop_spec {α : Type} (g : DependencyGraph α) (hids : g.ids.Nodup) :
    ∀ (fuel : Nat) (deg : String → Int) (queue result : List String),
      DependencyGraph.KahnInv g deg queue result →
      g.ids.length - result.length + 1 ≤ fuel →
      (result <+: DependencyGraph.kahn_loop g fuel deg queue result) ∧
      (DependencyGraph.kahn_loop g fuel deg queue result).Nodup ∧
      (∀ x ∈ DependencyGraph.kahn_loop g fuel deg queue result, x ∈ g.ids) ∧
      DependencyGraph.IdsTopo g (DependencyGraph.kahn_loop g fuel deg queue result) ∧
      (∀ t ∈ g.tasks, t.dependencies.Nodup →
        (∀ d ∈ t.dependencies, d ∈ DependencyGraph.kahn_loop g fuel deg queue result) →
        t.id ∈ DependencyGraph.kahn_loop g fuel deg queue result) := by
  intro fuel
  induction fuel with
  | zero =>
    intro deg queue result _ hfuel
    omega
  | succ fuel ih =>
    intro deg queue result inv hfuel
    cases hsort : List.insertionSort (DependencyGraph.queue_le g) queue with
    | nil =>
      have hqnil : queue = [] := by
        have hperm := List.perm_insertionSort (DependencyGraph.queue_le g) queue
        rw [hsort] at hperm
        exact List.perm_nil.mp hperm.symm
      have hk : DependencyGraph.kahn_loop g (fuel + 1) deg queue result = result := by
        simp only [DependencyGraph.kahn_loop, hsort]
      rw [hk]
      refine ⟨List.prefix_refl result, inv.result_nodup, inv.result_ids, inv.topo, ?_⟩
      intro t ht hnd hsub
      have hlen := filter_contains_length_of_sub inv.result_nodup hnd hsub
      have hdeg0 : deg t.id = 0 := by
        rw [inv.deg_eq t ht, hlen]
        ring
      by_contra hnotin
      have hmem := (inv.queue_iff t ht).mpr ⟨hdeg0, hnotin⟩
      rw [hqnil] at hmem
      exact absurd hmem (List.not_mem_nil _)
    | cons current rest =>
      have hperm : (current :: rest).Perm queue := by
        have h := List.perm_insertionSort (DependencyGraph.queue_le g) queue
        rw [hsort] at h
        exact h
      have hsnd : (current :: rest).Nodup := hperm.nodup_iff.mpr inv.queue_nodup
      rw [List.nodup_cons] at hsnd
      obtain ⟨hcur_rest, hrest_nd⟩ := hsnd
      have hcur_q : current ∈ queue := hperm.subset (List.mem_cons_self _ _)
      have hrest_q : ∀ x ∈ rest, x ∈ queue :=
        fun x hx => hperm.subset (List.mem_cons_of_mem _ hx)
      have hcur_ids : current ∈ g.ids := inv.queue_ids current hcur_q
      have hcur_not_res : current ∉ result := inv.queue_fresh current hcur_q
      obtain ⟨tc, htc, htcid⟩ := (mem_ids_iff g current).mp hcur_ids
      subst htcid
      have hdeg_cur : deg tc.id = 0 := ((inv.queue_iff tc htc).mp hcur_q).1
      have hfl : (result.filter (fun r => tc.dependencies.contains r)).length =
          tc.dependencies.length := by
        have h := inv.deg_eq tc htc
        rw [hdeg_cur] at h
        omega
      obtain ⟨htc_nd, htc_sub⟩ := deps_nodup_sub_of_filter_length inv.result_nodup hfl
      obtain ⟨hd_other, hd_t, hq'⟩ :=
        dec_step_spec tc.id g.tasks deg rest (by exact hids)
      have hmem_new : ∀ x, (x ∈ (g.tasks.filter (fun t =>
            t.dependencies.contains tc.id && (deg t.id - 1 == 0))).map Task.id) ↔
          ∃ u ∈ g.tasks, u.id = x ∧ u.dependencies.contains tc.id = true ∧
            deg u.id = 1 := by
        intro x
        simp only [List.mem_map, List.mem_filter, Bool.and_eq_true, beq_iff_eq]
        constructor
        · rintro ⟨u, ⟨hu, hc, hz⟩, rfl⟩
          exact ⟨u, hu, rfl, hc, by omega⟩
        · rintro ⟨u, hu, rfl, hc, hz⟩
          exact ⟨u, ⟨hu, hc, by omega⟩, rfl⟩
      have hnew_not_res : ∀ x, (∃ u ∈ g.tasks, u.id = x ∧
            u.dependencies.contains tc.id = true ∧ deg u.id = 1) → x ∉ result := by
        rintro x ⟨u, hu, rfl, _, hdu⟩ hxres
        obtain ⟨s, t', hsplit⟩ := List.append_of_mem hxres
        obtain ⟨hund, husub⟩ := inv.topo s u.id t' hsplit u hu rfl
        have hsub' : ∀ d ∈ u.dependencies, d ∈ result := by
          intro d hd
          rw [hsplit]
          exact List.mem_append.mpr (Or.inl (husub d hd))
        have hlen := filter_contains_length_of_sub inv.result_nodup hund hsub'
        have h := inv.deg_eq u hu
        rw [hlen] at h
        omega
      have hnew_ne_cur : ∀ x, (∃ u ∈ g.tasks, u.id = x ∧
            u.dependencies.contains tc.id = true ∧ deg u.id = 1) → x ≠ tc.id := by
        rintro x ⟨u, hu, rfl, _, hdu⟩ heq
        have : u = tc := task_eq_of_id_eq hids hu htc heq
        subst this
        omega
      -- the new state
      have hinv' : DependencyGraph.KahnInv g
          (DependencyGraph.dec_step g tc.id (deg, rest)).1
          (DependencyGraph.dec_step g tc.id (deg, rest)).2
          (result ++ [tc.id]) := by
        refine ⟨?_, ?_, ?_, ?_, ?_, ?_, ?_, ?_⟩
        · rw [List.nodup_append]
          exact ⟨inv.result_nodup, List.nodup_singleton _, by
            intro x hx hx'
            rw [List.mem_singleton] at hx'
            subst hx'
            exact hcur_not_res hx⟩
        · intro x hx
          rcases List.mem_append.mp hx with hx | hx
          · exact inv.result_ids x hx
          · rw [List.mem_singleton] at hx
            subst hx
            exact hcur_ids
        · rw [hq', List.nodup_append]
          refine ⟨hrest_nd, ?_, ?_⟩
          · exact ((List.filter_sublist g.tasks).map Task.id).nodup hids
          · intro x hx hx'
            have hdx1 : ∃ u ∈ g.tasks, u.id = x ∧
                u.dependencies.contains tc.id = true ∧ deg u.id = 1 :=
              (hmem_new x).mp hx'
            obtain ⟨u, hu, rfl, _, hdu⟩ := hdx1
            have hq := hrest_q u.id hx
            have := ((inv.queue_iff u hu).mp hq).1
            omega
        · rw [hq']
          intro x hx
          rcases List.mem_append.mp hx with hx | hx
          · exact inv.queue_ids x (hrest_q x hx)
          · obtain ⟨u, hu, rfl, _, _⟩ := (hmem_new x).mp hx
            exact (mem_ids_iff g u.id).mpr ⟨u, hu, rfl⟩
        · rw [hq']
          intro x hx hx'
          rcases List.mem_append.mp hx with hx | hx
          · rcases List.mem_append.mp hx' with hr | hr
            · exact inv.queue_fresh x (hrest_q x hx) hr
            · rw [List.mem_singleton] at hr
              subst hr
              exact hcur_rest hx
          · have hdx1 := (hmem_new x).mp hx
            rcases List.mem_append.mp hx' with hr | hr
            · exact hnew_not_res x hdx1 hr
            · rw [List.mem_singleton] at hr
              exact hnew_ne_cur x hdx1 hr
        · intro t ht
          rw [hd_t t ht, List.filter_append, List.length_append]
          have hsing : ([tc.id].filter (fun r => t.dependencies.contains r)).length =
              if t.dependencies.contains tc.id then 1 else 0 := by
            by_cases hc : t.dependencies.contains tc.id
            · rw [if_pos hc]
              have hmem : tc.id ∈ t.dependencies := List.elem_iff.mp hc
              simp [List.filter_cons, hmem]
            · rw [if_neg hc]
              have hmem : tc.id ∉ t.dependencies := by
                intro hm
                exact hc (List.elem_iff.mpr hm)
              simp [List.filter_cons, hmem]
          rw [hsing]
          have h := inv.deg_eq t ht
          by_cases hc : t.dependencies.contains tc.id
          · rw [if_pos hc, if_pos hc]
            push_cast
            omega
          · rw [if_neg hc, if_neg hc]
            push_cast
            omega
        · intro t ht
          rw [hq', hd_t t ht]
          constructor
          · intro hmem
            rcases List.mem_append.mp hmem with hx | hx
            · -- t.id was already queued: its degree is 0 and tc.id is not
              -- among its dependencies (all of them are already in result)
              have hq0 := ((inv.queue_iff t ht).mp (hrest_q t.id hx)).1
              have hnres := ((inv.queue_iff t ht).mp (hrest_q t.id hx)).2
              have hc : ¬ t.dependencies.contains tc.id = true := by
                intro hc
                have hfl' : (result.filter (fun r =>
                    t.dependencies.contains r)).length = t.dependencies.length := by
                  have h := inv.deg_eq t ht
                  rw [hq0] at h
                  omega
                obtain ⟨_, hsub⟩ :=
                  deps_nodup_sub_of_filter_length inv.result_nodup hfl'
                exact hcur_not_res (hsub tc.id (List.elem_iff.mp hc))
              rw [if_neg hc]
              refine ⟨hq0, ?_⟩
              intro hres
              rcases List.mem_append.mp hres with hr | hr
              · exact hnres hr
              · rw [List.mem_singleton] at hr
                exact hcur_rest (hr ▸ hx)
            · obtain ⟨u, hu, huid, hc, hdu⟩ := (hmem_new t.id).mp hx
              have : u = t := task_eq_of_id_eq hids hu ht huid
              subst this
              rw [if_pos hc]
              refine ⟨by omega, ?_⟩
              intro hres
              rcases List.mem_append.mp hres with hr | hr
              · exact hnew_not_res u.id ⟨u, hu, rfl, hc, hdu⟩ hr
              · rw [List.mem_singleton] at hr
                exact hnew_ne_cur u.id ⟨u, hu, rfl, hc, hdu⟩ hr
          · rintro ⟨hdeg', hnres'⟩
            have hnres : t.id ∉ result := by
              intro hr
              exact hnres' (List.mem_append.mpr (Or.inl hr))
            have hne_cur : t.id ≠ tc.id := by
              intro hr
              exact hnres' (List.mem_append.mpr (Or.inr (List.mem_singleton.mpr hr)))
            by_cases hc : t.dependencies.contains tc.id
            · rw [if_pos hc] at hdeg'
              refine List.mem_append.mpr (Or.inr ?_)
              exact (hmem_new t.id).mpr ⟨t, ht, rfl, hc, by omega⟩
            · rw [if_neg hc] at hdeg'
              have hmem := (inv.queue_iff t ht).mpr ⟨hdeg', hnres⟩
              have := hperm.mem_iff.mpr hmem
              rcases List.mem_cons.mp this with hr | hr
              · exact absurd hr hne_cur
              · exact List.mem_append.mpr (Or.inl hr)
        · exact idsTopo_snoc hids inv.topo htc htc_nd htc_sub
      have hreslt : result.length + 1 ≤ g.ids.length := by
        have hnd' : (result ++ [tc.id]).Nodup := hinv'.result_nodup
        have hsub' : (result ++ [tc.id]) ⊆ g.ids := fun x hx => hinv'.result_ids x hx
        have := (hnd'.subperm hsub').length_le
        simpa using this
      have hfuel' : g.ids.length - (result ++ [tc.id]).length + 1 ≤ fuel := by
        rw [List.length_append, List.length_singleton]
        omega
      have hk : DependencyGraph.kahn_loop g (fuel + 1) deg queue result =
          DependencyGraph.kahn_loop g fuel
            (DependencyGraph.dec_step g tc.id (deg, rest)).1
            (DependencyGraph.dec_step g tc.id (deg, rest)).2
            (result ++ [tc.id]) := by
        simp only [DependencyGraph.kahn_loop, hsort]
      obtain ⟨hpre, hnd, hids', htopo, hcompl⟩ := ih
        (DependencyGraph.dec_step g tc.id (deg, rest)).1
        (DependencyGraph.dec_step g tc.id (deg, rest)).2
        (result ++ [tc.id]) hinv' hfuel'
      rw [hk]
      exact ⟨(List.prefix_append result [tc.id]).trans hpre, hnd, hids', htopo, hcompl⟩

/-- Abbreviation for the id sequence the Kahn loop of get_execution_order
produces on a graph whose in-degree computation returned deg. -/
theorem exec_order_cases {α : Type} (g : DependencyGraph α) (hids : g.ids.Nodup)
    {deg : String → Int} (hdeg : g.compute_in_degrees = Except.ok deg) :
    ∃ final : List String,
      final.Nodup ∧ (∀ x ∈ final, x ∈ g.ids) ∧ g.IdsTopo final ∧
      (∀ t ∈ g.tasks, t.dependencies.Nodup →
        (∀ d ∈ t.dependencies, d ∈ final) → t.id ∈ final) ∧
      (final.length = g.tasks.length →
        g.get_execution_order = Except.ok
          (final.filterMap (fun i => g.tasks.find? (fun t => t.id == i)))) ∧
      (final.length ≠ g.tasks.length →
        g.get_execution_order = Except.error
          (GraphError.circularDependencies
            (g.ids.filter (fun i => !final.contains i)))) := by
  obtain ⟨_, hdegchar⟩ := compute_in_degrees_ok_spec hids hdeg
  have hinv : DependencyGraph.KahnInv g deg
      ((g.tasks.filter (fun t => deg t.id == 0)).map Task.id) [] := by
    refine ⟨List.nodup_nil, ?_, ?_, ?_, ?_, ?_, ?_, idsTopo_nil g⟩
    · intro x hx
      exact absurd hx (List.not_mem_nil x)
    · exact ((List.filter_sublist g.tasks).map Task.id).nodup hids
    · intro x hx
      obtain ⟨u, hu, rfl⟩ := List.mem_map.mp hx
      exact (mem_ids_iff g u.id).mpr ⟨u, (List.mem_filter.mp hu).1, rfl⟩
    · intro x _ hx
      exact absurd hx (List.not_mem_nil x)
    · intro t ht
      rw [List.filter_nil]
      simp only [List.length_nil, Nat.cast_zero]
      rw [hdegchar t ht]
      ring
    · intro t ht
      constructor
      · intro hmem
        obtain ⟨u, hu, huid⟩ := List.mem_map.mp hmem
        have : u = t := task_eq_of_id_eq hids (List.mem_filter.mp hu).1 ht huid
        subst this
        have := (List.mem_filter.mp hu).2
        exact ⟨by simpa using this, List.not_mem_nil _⟩
      · rintro ⟨hdeg0, _⟩
        exact List.mem_map.mpr ⟨t, List.mem_filter.mpr ⟨ht, by simpa using hdeg0⟩, rfl⟩
  have hlen_ids : g.ids.length = g.tasks.length := by
    simp [DependencyGraph.ids]
  obtain ⟨_, hnd, hfin_ids, htopo, hcompl⟩ :=
    kahn_loop_spec g hids (g.tasks.length + 1) deg
      ((g.tasks.filter (fun t => deg t.id == 0)).map Task.id) [] hinv (by omega)
  refine ⟨DependencyGraph.kahn_loop g (g.tasks.length + 1) deg
    ((g.tasks.filter (fun t => deg t.id == 0)).map Task.id) [],
    hnd, hfin_ids, htopo, hcompl, ?_, ?_⟩
  · intro hlen
    unfold DependencyGraph.get_execution_order
    rw [hdeg]
    show (if _ = g.tasks.length then _ else _) = _
    rw [if_pos hlen]
  · intro hlen
    unfold DependencyGraph.get_execution_order
    rw [hdeg]
    show (if _ = g.tasks.length then _ else _) = _
    rw [if_neg hlen]

/-! From a successful sort to a topological permutation of the tasks. -/

theorem filterMap_find_spec {α : Type} (g : DependencyGraph α) (hids : g.ids.Nodup) :
    ∀ l : List String, (∀ x ∈ l, x ∈ g.ids) →
      ((l.filterMap (fun i => g.tasks.find? (fun t => t.id == i))).map Task.id = l ∧
       ∀ u ∈ l.filterMap (fun i => g.tasks.find? (fun t => t.id == i)), u ∈ g.tasks) := by
  intro l
  induction l with
  | nil => exact fun _ => ⟨rfl, fun u hu => absurd hu (List.not_mem_nil u)⟩
  | cons x l' ih =>
    intro hsub
    obtain ⟨tx, htx, htxid⟩ := (mem_ids_iff g x).mp (hsub x (List.mem_cons_self x l'))
    have hfind : g.tasks.find? (fun t => t.id == x) = some tx := by
      rw [← htxid]
      exact find?_id_eq hids htx
    obtain ⟨ih1, ih2⟩ := ih (fun y hy => hsub y (List.mem_cons_of_mem x hy))
    rw [List.filterMap_cons]
    constructor
    · rw [hfind]
      simp only [List.map_cons, ih1, htxid]
    · rw [hfind]
      intro u hu
      rcases List.mem_cons.mp hu with rfl | hu
      · exact htx
      · exact ih2 u hu

theorem ids_filterMap_eq_tasks {α : Type} (g : DependencyGraph α)
    (hids : g.ids.Nodup) :
    g.ids.filterMap (fun i => g.tasks.find? (fun t => t.id == i)) = g.tasks := by
  show (g.tasks.map Task.id).filterMap
    (fun i => g.tasks.find? (fun t => t.id == i)) = g.tasks
  have : ∀ ts : List (Task α), (∀ t ∈ ts, t ∈ g.tasks) →
      (ts.map Task.id).filterMap (fun i => g.tasks.find? (fun t => t.id == i)) = ts := by
    intro ts
    induction ts with
    | nil => exact fun _ => rfl
    | cons t ts' ih =>
      intro hsub
      rw [List.map_cons, List.filterMap_cons]
      have hfind : g.tasks.find? (fun u => u.id == t.id) = some t :=
        find?_id_eq hids (hsub t (List.mem_cons_self t ts'))
      rw [hfind, ih (fun u hu => hsub u (List.mem_cons_of_mem t hu))]
  exact this g.tasks (fun _ h => h)

theorem exec_order_ok_spec {α : Type} {g : DependencyGraph α} (hids : g.ids.Nodup)
    {order : List (Task α)} (h : g.get_execution_order = Except.ok order) :
    order.Perm g.tasks ∧ DependencyGraph.TopoOrder order ∧
    (order.map Task.id).Nodup ∧ g.IdsTopo (order.map Task.id) := by
  cases hdeg : g.compute_in_degrees with
  | error e =>
    rw [DependencyGraph.get_execution_order, hdeg] at h
    cases h
  | ok deg =>
    obtain ⟨final, hnd, hfin_ids, htopo, _, hok, herr⟩ := exec_order_cases g hids hdeg
    by_cases hlen : final.length = g.tasks.length
    · have heq := (hok hlen).symm.trans h
      have horder : order = final.filterMap (fun i => g.tasks.find? (fun t => t.id == i)) := by
        injection heq with heq'
        exact heq'.symm
      obtain ⟨hmap, hmem⟩ := filterMap_find_spec g hids final hfin_ids
      have hmapid : order.map Task.id = final := by
        rw [horder, hmap]
      have hperm_ids : final.Perm g.ids := by
        obtain ⟨l', hperm, hsubl⟩ := hnd.subperm (fun x hx => hfin_ids x hx)
        have hlen' : l'.length = g.ids.length := by
          rw [hperm.length_eq, hlen]
          simp [DependencyGraph.ids]
        rw [← hsubl.eq_of_length hlen']
        exact hperm.symm
      refine ⟨?_, ?_, ?_, ?_⟩
      · have := hperm_ids.filterMap (fun i => g.tasks.find? (fun t => t.id == i))
        rw [← horder, ids_filterMap_eq_tasks g hids] at this
        exact this
      · intro pre t post hsplit d hd
        have hfinsplit : final = pre.map Task.id ++ t.id :: post.map Task.id := by
          rw [← hmapid, hsplit]
          simp
        have htmem : t ∈ g.tasks := by
          apply hmem
          rw [horder] at hsplit
          rw [hsplit] at *
          exact List.mem_append.mpr (Or.inr (List.mem_cons_self t _))
        obtain ⟨_, hdsub⟩ := htopo (pre.map Task.id) t.id (post.map Task.id)
          hfinsplit t htmem rfl
        obtain ⟨u, hu, huid⟩ := List.mem_map.mp (hdsub d hd)
        exact ⟨u, hu, huid⟩
      · rw [hmapid]
        exact hnd
      · rw [hmapid]
        exact htopo
    · rw [herr hlen] at h
      cases h

/-! Cycles. -/

theorem chain_getLast_transGen {r : String → String → Prop} :
    ∀ (l : List String) (x y : String), List.Chain r x l → l.getLast? = some y →
      Relation.TransGen r x y := by
  intro l
  induction l with
  | nil =>
    intro x y _ hlast
    cases hlast
  | cons a l' ih =>
    intro x y hchain hlast
    obtain ⟨hxa, hchain'⟩ := List.chain_cons.mp hchain
    cases l' with
    | nil =>
      have : y = a := by
        simpa using hlast.symm
      subst this
      exact Relation.TransGen.single hxa
    | cons b l'' =>
      rw [List.getLast?_cons_cons] at hlast
      exact Relation.TransGen.head hxa (ih a y hchain' hlast)

theorem transGen_measure_lt {r : String → String → Prop} (m : String → Nat)
    (hdec : ∀ a b, r a b → m b < m a) {x y : String}
    (h : Relation.TransGen r x y) : m y < m x := by
  induction h with
  | single hxy => exact hdec _ _ hxy
  | tail _ hyz ih => exact lt_trans (hdec _ _ hyz) ih

theorem not_hasCycle_of_measure {α : Type} (g : DependencyGraph α)
    (m : String → Nat) (hdec : ∀ a b, g.Edge a b → m b < m a) :
    ¬ g.HasCycle := by
  rintro ⟨x, l, hchain, hlast⟩
  have htg := chain_getLast_transGen l x x hchain hlast
  have := transGen_measure_lt m hdec htg
  omega

theorem firstPos_append_left :
    ∀ (s l : List String) (b : String), b ∈ s →
      DependencyGraph.firstPos (s ++ l) b < s.length := by
  intro s
  induction s with
  | nil =>
    intro l b hb
    exact absurd hb (List.not_mem_nil b)
  | cons c s' ih =>
    intro l b hb
    by_cases hc : c = b
    · subst hc
      unfold DependencyGraph.firstPos
      rw [List.cons_append, List.takeWhile_cons]
      simp
    · unfold DependencyGraph.firstPos
      rw [List.cons_append, List.takeWhile_cons]
      have hcb : (c != b) = true := by
        simpa using hc
      rw [if_pos hcb]
      simp only [List.length_cons]
      have hb' : b ∈ s' := by
        rcases List.mem_cons.mp hb with h | h
        · exact absurd h.symm hc
        · exact h
      have := ih l b hb'
      unfold DependencyGraph.firstPos at this
      omega

theorem firstPos_append_self :
    ∀ (s l : List String) (a : String), a ∉ s →
      DependencyGraph.firstPos (s ++ a :: l) a = s.length := by
  intro s
  induction s with
  | nil =>
    intro l a _
    unfold DependencyGraph.firstPos
    rw [List.nil_append, List.takeWhile_cons]
    simp
  | cons c s' ih =>
    intro l a ha
    have hca : c ≠ a := by
      intro h
      exact ha (h ▸ List.mem_cons_self c s')
    have hca' : (c != a) = true := by
      simpa using hca
    unfold DependencyGraph.firstPos
    rw [List.cons_append, List.takeWhile_cons, if_pos hca']
    simp only [List.length_cons]
    have := ih l a (fun h => ha (List.mem_cons_of_mem c h))
    unfold DependencyGraph.firstPos at this
    omega

theorem not_hasCycle_of_ok {α : Type} {g : DependencyGraph α} (hids : g.ids.Nodup)
    {order : List (Task α)} (h : g.get_execution_order = Except.ok order) :
    ¬ g.HasCycle := by
  obtain ⟨hperm, _, hnd, htopo⟩ := exec_order_ok_spec hids h
  have hperm_ids : (order.map Task.id).Perm g.ids :=
    hperm.map Task.id
  apply not_hasCycle_of_measure g (DependencyGraph.firstPos (order.map Task.id))
  rintro a b ⟨ta, hta, rfl, hb⟩
  have hamem : ta.id ∈ order.map Task.id :=
    hperm_ids.mem_iff.mpr ((mem_ids_iff g ta.id).mpr ⟨ta, hta, rfl⟩)
  obtain ⟨s, t', hsplit⟩ := List.append_of_mem hamem
  obtain ⟨_, hsub⟩ := htopo s ta.id t' hsplit ta hta rfl
  have hbs : b ∈ s := hsub b hb
  have ha_not_s : ta.id ∉ s := by
    intro hmem
    have : ¬ (s ++ ta.id :: t').Nodup := by
      rw [List.nodup_append]
      intro ⟨_, _, hdisj⟩
      exact hdisj hmem (List.mem_cons_self _ _)
    rw [← hsplit] at this
    exact this hnd
  rw [hsplit]
  rw [firstPos_append_self s t' ta.id ha_not_s]
  have := firstPos_append_left s (ta.id :: t') b hbs
  omega

theorem exec_order_error_spec {α : Type} {g : DependencyGraph α}
    (hids : g.ids.Nodup) (hdang : g.NoDangling) {e : GraphError}
    (h : g.get_execution_order = Except.error e) :
    ∃ R, e = GraphError.circularDependencies R ∧ R ≠ [] ∧ (∀ x ∈ R, x ∈ g.ids) ∧
      (g.DepsNodup → ∀ x ∈ R, ∃ t ∈ g.tasks, t.id = x ∧
        ∃ d ∈ t.dependencies, d ∈ R) := by
  obtain ⟨deg, hdeg⟩ := compute_in_degrees_exists hdang
  obtain ⟨final, hnd, hfin_ids, _, hcompl, hok, herr⟩ := exec_order_cases g hids hdeg
  by_cases hlen : final.length = g.tasks.length
  · rw [hok hlen] at h
    cases h
  · rw [herr hlen] at h
    have he : e = GraphError.circularDependencies
        (g.ids.filter (fun i => !final.contains i)) := by
      injection h with h'
      exact h'.symm
    refine ⟨g.ids.filter (fun i => !final.contains i), he, ?_, ?_, ?_⟩
    · intro hnil
      have hall : ∀ x ∈ g.ids, x ∈ final := by
        intro x hx
        have hfe := List.filter_eq_nil.mp hnil x hx
        have hcont : final.contains x = true := by
          simpa using hfe
        exact List.elem_iff.mp hcont
      have h1 : g.ids.length ≤ final.length := (hids.subperm hall).length_le
      have h2 : final.length ≤ g.ids.length :=
        ((hnd.subperm (fun x hx => hfin_ids x hx)).length_le)
      have h3 : g.ids.length = g.tasks.length := by
        simp [DependencyGraph.ids]
      omega
    · intro x hx
      exact (List.mem_filter.mp hx).1
    · intro hdeps x hx
      obtain ⟨hxids, hxnot⟩ := List.mem_filter.mp hx
      have hxnot' : x ∉ final := by
        intro hmem
        have hcont : final.contains x = true := List.elem_iff.mpr hmem
        rw [hcont] at hxnot
        cases hxnot
      obtain ⟨t, ht, htid⟩ := (mem_ids_iff g x).mp hxids
      refine ⟨t, ht, htid, ?_⟩
      by_contra hnone
      push_neg at hnone
      have hall : ∀ d ∈ t.dependencies, d ∈ final := by
        intro d hd
        have hdids : d ∈ g.ids := hdang t ht d hd
        have hnotf : d ∉ g.ids.filter (fun i => !final.contains i) :=
          fun hdf => hnone d hd hdf
        by_contra hdnot
        apply hnotf
        refine List.mem_filter.mpr ⟨hdids, ?_⟩
        simpa using hdnot
      have := hcompl t ht (hdeps t ht) hall
      rw [htid] at this
      exact hxnot' this

theorem chain_iterate {α : Type} (g : DependencyGraph α) (u : Nat → String)
    (hedge : ∀ n, g.Edge (u n) (u (n + 1))) :
    ∀ (k n : Nat), 1 ≤ k →
      List.Chain g.Edge (u n) ((List.range' (n + 1) k).map u) ∧
      ((List.range' (n + 1) k).map u).getLast? = some (u (n + k)) := by
  intro k
  induction k with
  | zero =>
    intro n h
    omega
  | succ k ih =>
    intro n _
    rcases Nat.eq_zero_or_pos k with hk0 | hk1
    · subst hk0
      rw [List.range'_one, List.map_cons, List.map_nil]
      exact ⟨List.chain_cons.mpr ⟨hedge n, List.Chain.nil⟩, by simp⟩
    · rw [List.range'_succ, List.map_cons]
      obtain ⟨hch, hlast⟩ := ih (n + 1) hk1
      refine ⟨List.chain_cons.mpr ⟨hedge n, hch⟩, ?_⟩
      cases hk : List.range' (n + 1 + 1) k with
      | nil =>
        exfalso
        have := congrArg List.length hk
        simp [List.length_range'] at this
        omega
      | cons m ms =>
        rw [hk, List.map_cons] at hlast
        rw [List.map_cons, List.getLast?_cons_cons, hlast]
        have harith : n + 1 + k = n + (k + 1) := by omega
        rw [harith]

theorem hasCycle_of_iterate {α : Type} (g : DependencyGraph α) (u : Nat → String)
    (hedge : ∀ n, g.Edge (u n) (u (n + 1))) (i j : Nat) (hij : i < j)
    (heq : u i = u j) : g.HasCycle := by
  obtain ⟨hch, hlast⟩ := chain_iterate g u hedge (j - i) i (by omega)
  refine ⟨u i, (List.range' (i + 1) (j - i)).map u, hch, ?_⟩
  rw [hlast]
  have harith : i + (j - i) = j := by omega
  rw [harith, ← heq]

theorem hasCycle_of_succ {α : Type} (g : DependencyGraph α) (R : List String)
    (hne : R ≠ []) (hsucc : ∀ x ∈ R, ∃ y, y ∈ R ∧ g.Edge x y) : g.HasCycle := by
  classical
  obtain ⟨x₀, hx₀⟩ := List.exists_mem_of_ne_nil R hne
  let pick : String → String := fun x =>
    if hx : x ∈ R then (hsucc x hx).choose else x
  have hpick : ∀ x, x ∈ R → pick x ∈ R ∧ g.Edge x (pick x) := by
    intro x hx
    have hspec := (hsucc x hx).choose_spec
    simp only [pick, dif_pos hx]
    exact hspec
  let u : Nat → String := fun n => pick^[n] x₀
  have hu0 : u 0 = x₀ := rfl
  have husucc : ∀ n, u (n + 1) = pick (u n) := by
    intro n
    simp only [u]
    exact Function.iterate_succ_apply' pick n x₀
  have humem : ∀ n, u n ∈ R := by
    intro n
    induction n with
    | zero => exact hx₀
    | succ n ih =>
      rw [husucc n]
      exact (hpick (u n) ih).1
  have hedge : ∀ n, g.Edge (u n) (u (n + 1)) := by
    intro n
    rw [husucc n]
    exact (hpick (u n) (humem n)).2
  have hcard : R.toFinset.card < (Finset.range (R.length + 1)).card := by
    have h1 : R.toFinset.card ≤ R.length := List.toFinset_card_le R
    rw [Finset.card_range]
    omega
  have hrepeat : ∃ i ∈ Finset.range (R.length + 1), ∃ j ∈ Finset.range (R.length + 1),
      i ≠ j ∧ u i = u j :=
    Finset.exists_ne_map_eq_of_card_lt_of_maps_to hcard
      (fun n _ => List.mem_toFinset.mpr (humem n))
  obtain ⟨i, _, j, _, hij, hu_eq⟩ := hrepeat
  -- arrange i < j
  rcases Nat.lt_or_ge i j with hlt | hge
  · exact hasCycle_of_iterate g u hedge i j hlt hu_eq
  · have hlt : j < i := by omega
    exact hasCycle_of_iterate g u hedge j i hlt hu_eq.symm

theorem hasCycle_of_error {α : Type} {g : DependencyGraph α} (hids : g.ids.Nodup)
    (hdang : g.NoDangling) (hdeps : g.DepsNodup) {e : GraphError}
    (h : g.get_execution_order = Except.error e) : g.HasCycle := by
  obtain ⟨R, _, hne, _, himp⟩ := exec_order_error_spec hids hdang h
  apply hasCycle_of_succ g R hne
  intro x hx
  obtain ⟨t, ht, htid, d, hd, hdR⟩ := himp hdeps x hx
  exact ⟨d, hdR, ⟨t, ht, htid, hd⟩⟩

theorem exec_error_of_hasCycle {α : Type} {g : DependencyGraph α}
    (hids : g.ids.Nodup) (hcyc : g.HasCycle) :
    ∃ e, g.get_execution_order = Except.error e := by
  cases hexec : g.get_execution_order with
  | ok order => exact absurd hcyc (not_hasCycle_of_ok hids hexec)
  | error e => exact ⟨e, rfl⟩

/-- The graph in which B lists A twice is acyclic: its only dependency edge
runs from B to A, so the two-valued measure B = 1, otherwise 0 strictly
decreases along every edge. -/
theorem dupDepGraph_acyclic : ¬ dupDepGraph.HasCycle := by
  apply not_hasCycle_of_measure dupDepGraph
    (fun s => if s = "B" then 1 else 0)
  rintro a b ⟨t, ht, rfl, hb⟩
  have ht' : t ∈ [taskA, plainTask "B" ["A", "A"]] := ht
  rcases List.mem_cons.mp ht' with rfl | ht''
  · exact absurd hb (by simp [taskA, plainTask])
  · rcases List.mem_cons.mp ht'' with rfl | ht'''
    · have hb' : b = "A" := by
        simpa [plainTask] using hb
      subst hb'
      simp [plainTask]
    · exact absurd ht''' (List.not_mem_nil _)

/-- C1 (amended): for every graph with unique task ids, no dangling
dependencies, no task listing the same dependency id twice, and no
dependency cycle, get_execution_order succeeds and returns a permutation of
all tasks in which every dependency of every task occurs strictly earlier in
the sequence. -/
theorem C1_execution_order_topological {α : Type} (g : DependencyGraph α)
    (hids : g.ids.Nodup) (hdang : g.NoDangling) (hdeps : g.DepsNodup)
    (hacyc : ¬ g.HasCycle) :
    ∃ order, g.get_execution_order = Except.ok order ∧
      order.Perm g.tasks ∧ DependencyGraph.TopoOrder order := by
  cases hexec : g.get_execution_order with
  | error e => exact absurd (hasCycle_of_error hids hdang hdeps hexec) hacyc
  | ok order =>
    obtain ⟨hperm, htopo, _, _⟩ := exec_order_ok_spec hids hexec
    exact ⟨order, rfl, hperm, htopo⟩

/-- C1 witness: on the concrete acyclic chain graph all hypotheses hold and
the theorem yields the topological permutation. -/
theorem C1_execution_order_topological_witness :
    ∃ order, chainGraph.get_execution_order = Except.ok order ∧
      order.Perm chainGraph.tasks ∧ DependencyGraph.TopoOrder order :=
  C1_execution_order_topological chainGraph (by decide) (by decide) (by decide)
    (not_hasCycle_of_ok (by decide)
      (show chainGraph.get_execution_order =
        Except.ok [taskA, taskB, taskC, taskD] from rfl))

/-- C1 counterexample: dupDepGraph has unique ids, no dangling dependencies
and no cycle, yet get_execution_order raises the circular-dependencies error
instead of returning a permutation, because task B lists its dependency A
twice; this refutes the claim as stated. -/
theorem C1_duplicate_dep_breaks_claim :
    dupDepGraph.ids.Nodup ∧ dupDepGraph.NoDangling ∧ ¬ dupDepGraph.HasCycle ∧
    dupDepGraph.get_execution_order =
      Except.error (GraphError.circularDependencies ["B"]) :=
  ⟨by decide, by decide, dupDepGraph_acyclic, rfl⟩

/-- C2 (amended): for every graph with unique ids, no dangling dependencies
and no duplicated dependency entries, get_execution_order raises an error if
and only if the graph contains a dependency cycle; every raised error is the
circular-dependencies error carrying a nonempty list of unvisited task ids,
each of which has a dependency among those same unvisited ids. -/
theorem C2_error_iff_cycle {α : Type} (g : DependencyGraph α)
    (hids : g.ids.Nodup) (hdang : g.NoDangling) (hdeps : g.DepsNodup) :
    ((∃ e, g.get_execution_order = Except.error e) ↔ g.HasCycle) ∧
    (∀ e, g.get_execution_order = Except.error e →
      ∃ R, e = GraphError.circularDependencies R ∧ R ≠ [] ∧
        (∀ x ∈ R, x ∈ g.ids) ∧
        (∀ x ∈ R, ∃ t ∈ g.tasks, t.id = x ∧ ∃ d ∈ t.dependencies, d ∈ R)) := by
  constructor
  · constructor
    · rintro ⟨e, he⟩
      exact hasCycle_of_error hids hdang hdeps he
    · intro hcyc
      exact exec_error_of_hasCycle hids hcyc
  · intro e he
    obtain ⟨R, h1, h2, h3, h4⟩ := exec_order_error_spec hids hdang he
    exact ⟨R, h1, h2, h3, h4 hdeps⟩

/-- C2 witness: on the concrete acyclic chain graph A before B before C
before D the equivalence holds (and the graph indeed succeeds). -/
theorem C2_error_iff_cycle_witness :
    ((∃ e, chainGraph.get_execution_order = Except.error e) ↔
      chainGraph.HasCycle) ∧
    chainGraph.get_execution_order = Except.ok [taskA, taskB, taskC, taskD] :=
  ⟨(C2_error_iff_cycle chainGraph (by decide) (by decide) (by decide)).1, rfl⟩

/-- C2 counterexample: dupDepGraph has no dangling references and no cycle,
yet get_execution_order raises, refuting the claimed only-if direction as
stated. -/
theorem C2_raises_without_cycle :
    dupDepGraph.ids.Nodup ∧ dupDepGraph.NoDangling ∧ ¬ dupDepGraph.HasCycle ∧
    (∃ e, dupDepGraph.get_execution_order = Except.error e) :=
  ⟨by decide, by decide, dupDepGraph_acyclic,
    ⟨GraphError.circularDependencies ["B"], rfl⟩⟩

/-- C10: with unique ids and no dangling references, if some task lists the
same existing dependency id more than once, get_execution_order raises the
circular-dependencies error: the in-degree counts each list entry, but the
pop of the dependency decrements it only once, so the task never reaches
in-degree zero. -/
theorem C10_duplicate_dep_raises {α : Type} (g : DependencyGraph α)
    (hids : g.ids.Nodup) (hdang : g.NoDangling)
    (hdup : ∃ t ∈ g.tasks, ∃ d, 2 ≤ t.dependencies.count d) :
    ∃ R, g.get_execution_order =
      Except.error (GraphError.circularDependencies R) := by
  obtain ⟨t, ht, d, hcount⟩ := hdup
  have hnotnd : ¬ t.dependencies.Nodup := by
    intro hnd
    have := List.nodup_iff_count_le_one.mp hnd d
    omega
  obtain ⟨deg, hdeg⟩ := compute_in_degrees_exists hdang
  obtain ⟨final, hnd, hfin_ids, htopo, _, hok, herr⟩ := exec_order_cases g hids hdeg
  by_cases hlen : final.length = g.tasks.length
  · exfalso
    have hperm_ids : final.Perm g.ids := by
      obtain ⟨l', hperm, hsubl⟩ := hnd.subperm (fun x hx => hfin_ids x hx)
      have hlen' : l'.length = g.ids.length := by
        rw [hperm.length_eq, hlen]
        simp [DependencyGraph.ids]
      rw [← hsubl.eq_of_length hlen']
      exact hperm.symm
    have htid : t.id ∈ final :=
      hperm_ids.mem_iff.mpr ((mem_ids_iff g t.id).mpr ⟨t, ht, rfl⟩)
    obtain ⟨s, t', hsplit⟩ := List.append_of_mem htid
    exact hnotnd (htopo s t.id t' hsplit t ht rfl).1
  · exact ⟨_, herr hlen⟩

/-- C10 witness: the graph in which B lists A twice indeed raises the
circular-dependencies error. -/
theorem C10_duplicate_dep_raises_witness :
    ∃ R, dupDepGraph.get_execution_order =
      Except.error (GraphError.circularDependencies R) :=
  C10_duplicate_dep_raises dupDepGraph (by decide) (by decide)
    ⟨plainTask "B" ["A", "A"], by decide, "A", by decide⟩

/-! Characterization of validate_dependencies. -/

theorem validate_inner_eq {α : Type} (g : DependencyGraph α) (task : Task α) :
    ∀ (deps : List String) (errs : List ValidationIssue),
      deps.foldl (fun errs dep_id =>
        if !g.has_id dep_id then errs ++ [ValidationIssue.dangling task.id dep_id]
        else if dep_id == task.id then
          errs ++ [ValidationIssue.selfDependency task.id]
        else errs) errs = errs ++ deps.flatMap (g.issue_of task) := by
  intro deps
  induction deps with
  | nil =>
    intro errs
    simp
  | cons d ds ih =>
    intro errs
    rw [List.foldl_cons, List.flatMap_cons]
    have hstep : (if !g.has_id d then errs ++ [ValidationIssue.dangling task.id d]
        else if d == task.id then errs ++ [ValidationIssue.selfDependency task.id]
        else errs) = errs ++ g.issue_of task d := by
      unfold DependencyGraph.issue_of
      by_cases h1 : (!g.has_id d) = true
      · rw [if_pos h1, if_pos h1]
      · rw [if_neg h1, if_neg h1]
        by_cases h2 : (d == task.id) = true
        · rw [if_pos h2, if_pos h2]
        · rw [if_neg h2, if_neg h2, List.append_nil]
    rw [hstep, ih, List.append_assoc]

theorem validate_phase1_eq {α : Type} (g : DependencyGraph α) :
    ∀ (ts : List (Task α)) (errs : List ValidationIssue),
      ts.foldl (fun errs task =>
        task.dependencies.foldl (fun errs dep_id =>
          if !g.has_id dep_id then
            errs ++ [ValidationIssue.dangling task.id dep_id]
          else if dep_id == task.id then
            errs ++ [ValidationIssue.selfDependency task.id]
          else errs) errs) errs =
      errs ++ ts.flatMap (fun t => t.dependencies.flatMap (g.issue_of t)) := by
  intro ts
  induction ts with
  | nil =>
    intro errs
    simp
  | cons t ts' ih =>
    intro errs
    rw [List.foldl_cons, List.flatMap_cons, validate_inner_eq g t t.dependencies errs,
      ih, List.append_assoc]

theorem validate_dependencies_eq {α : Type} (g : DependencyGraph α) :
    g.validate_dependencies =
      (g.tasks.flatMap (fun t => t.dependencies.flatMap (g.issue_of t))) ++
        (match g.get_execution_order with
         | .ok _ => []
         | .error e => [ValidationIssue.orderFailure e]) := by
  unfold DependencyGraph.validate_dependencies
  cases hexec : g.get_execution_order with
  | ok order =>
    rw [validate_phase1_eq g g.tasks []]
    simp
  | error e =>
    rw [validate_phase1_eq g g.tasks []]
    simp

/-- C3 (amended): validate_dependencies never raises (it catches the sort's
failure and returns a list); on a graph with unique ids, no dangling
reference, no self-dependency, no duplicated dependency entry and no cycle
it returns the empty list; any dangling reference or self-dependency
contributes an issue naming the offending task and dependency; and on any
graph containing a cycle the returned list is nonempty. -/
theorem C3_validate_dependencies_spec {α : Type} (g : DependencyGraph α)
    (hids : g.ids.Nodup) :
    ((g.NoDangling ∧ g.NoSelfDep ∧ g.DepsNodup ∧ ¬ g.HasCycle) →
      g.validate_dependencies = []) ∧
    (∀ t ∈ g.tasks, ∀ d ∈ t.dependencies, d ∉ g.ids →
      DependencyGraph.ValidationIssue.dangling t.id d ∈ g.validate_dependencies) ∧
    (∀ t ∈ g.tasks, t.id ∈ t.dependencies →
      DependencyGraph.ValidationIssue.selfDependency t.id ∈
        g.validate_dependencies) ∧
    (g.HasCycle → g.validate_dependencies ≠ []) := by
  refine ⟨?_, ?_, ?_, ?_⟩
  · rintro ⟨hdang, hself, hdeps, hacyc⟩
    have hio : ∀ t ∈ g.tasks, ∀ d ∈ t.dependencies, g.issue_of t d = [] := by
      intro t ht d hd
      unfold DependencyGraph.issue_of
      have h1 : g.has_id d = true := (has_id_iff_mem_ids g d).mpr (hdang t ht d hd)
      rw [h1]
      have h2 : (d == t.id) = false := by
        rw [beq_eq_false_iff_ne]
        intro heq
        exact hself t ht (heq ▸ hd)
      rw [h2]
      rfl
    have hphase : (g.tasks.flatMap (fun t =>
        t.dependencies.flatMap (g.issue_of t))) = [] := by
      rw [List.eq_nil_iff_forall_not_mem]
      intro x hx
      obtain ⟨t, ht, hx'⟩ := List.mem_flatMap.mp hx
      obtain ⟨d, hd, hx''⟩ := List.mem_flatMap.mp hx'
      rw [hio t ht d hd] at hx''
      exact absurd hx'' (List.not_mem_nil x)
    cases hexec : g.get_execution_order with
    | error e => exact absurd (hasCycle_of_error hids hdang hdeps hexec) hacyc
    | ok order =>
      rw [validate_dependencies_eq g, hphase, hexec]
      rfl
  · intro t ht d hd hdang
    have hio : g.issue_of t d = [DependencyGraph.ValidationIssue.dangling t.id d] := by
      unfold DependencyGraph.issue_of
      have h1 : g.has_id d = false := by
        rw [Bool.eq_false_iff]
        intro hc
        exact hdang ((has_id_iff_mem_ids g d).mp hc)
      rw [h1]
      rfl
    rw [validate_dependencies_eq g]
    refine List.mem_append.mpr (Or.inl ?_)
    refine List.mem_flatMap.mpr ⟨t, ht, ?_⟩
    refine List.mem_flatMap.mpr ⟨d, hd, ?_⟩
    rw [hio]
    exact List.mem_singleton.mpr rfl
  · intro t ht hself
    have hio : g.issue_of t t.id =
        [DependencyGraph.ValidationIssue.selfDependency t.id] := by
      unfold DependencyGraph.issue_of
      have h1 : g.has_id t.id = true :=
        (has_id_iff_mem_ids g t.id).mpr ((mem_ids_iff g t.id).mpr ⟨t, ht, rfl⟩)
      rw [h1]
      have h2 : (t.id == t.id) = true := beq_self_eq_true t.id
      rw [h2]
      rfl
    rw [validate_dependencies_eq g]
    refine List.mem_append.mpr (Or.inl ?_)
    refine List.mem_flatMap.mpr ⟨t, ht, ?_⟩
    refine List.mem_flatMap.mpr ⟨t.id, hself, ?_⟩
    rw [hio]
    exact List.mem_singleton.mpr rfl
  · intro hcyc heq
    cases hexec : g.get_execution_order with
    | ok order => exact absurd hcyc (not_hasCycle_of_ok hids hexec)
    | error e =>
      rw [validate_dependencies_eq g, hexec] at heq
      exact List.append_ne_nil_of_right_ne_nil _ (by intro h; cases h) heq

/-- C3 witness: the concrete acyclic, well-formed chain graph validates to
the empty list. -/
theorem C3_validate_dependencies_witness :
    chainGraph.validate_dependencies = [] :=
  (C3_validate_dependencies_spec chainGraph (by decide)).1
    ⟨by decide, by decide, by decide,
      not_hasCycle_of_ok (by decide)
        (show chainGraph.get_execution_order =
          Except.ok [taskA, taskB, taskC, taskD] from rfl)⟩

/-- C3 counterexample: dupDepGraph has no dangling reference, no
self-dependency and no cycle — a valid graph in the claim's sense — yet
validate_dependencies returns a nonempty list (a spurious circular error),
refuting the claim as stated. -/
theorem C3_valid_graph_nonempty_issues :
    dupDepGraph.NoDangling ∧ dupDepGraph.NoSelfDep ∧ ¬ dupDepGraph.HasCycle ∧
    dupDepGraph.validate_dependencies ≠ [] :=
  ⟨by decide, by decide, dupDepGraph_acyclic, by decide⟩

end LLMSwarm
